import Mathlib

/-!
Verification of the spatial block-decomposition layer of the ADΔER codec
(`codec/compressed/blocks.rs`) and the frame-value conversion layer
(`framer/scale_intensity.rs`).

The Rust code is embedded shallowly:
* machine integers become `Nat` (with an explicit `% 65536` where the code
  casts to `u16`),
* `f32`/`f64` arithmetic is modelled over `ℚ`,
* fallible operations (array-index panics, `todo!()`, the `panic!` on an
  invalid colour channel) return `Option`, with `none` marking divergence,
* in-place mutation becomes explicit state passing.

The block side length `BLOCK_SIZE_BIG` is a compile-time constant whose
definition lies outside the visible fragment, so every definition is
parametric in the side length `N`.
-/

/-- Pixel coordinate of an event: column `x`, row `y`, optional colour
channel `c` (`none` means monochrome / channel 0). -/
structure Coord where
  x : Nat
  y : Nat
  c : Option Nat
deriving DecidableEq, Repr

/-- An ADΔER event: coordinate, quantized intensity exponent `d` (`u8`) and
elapsed time `delta_t` (`u32`). -/
structure Event where
  coord : Coord
  d : Nat
  delta_t : Nat
deriving DecidableEq, Repr

/-- An event stripped of its coordinate (`EventCoordless` in the source). -/
structure EventCoordless where
  d : Nat
  delta_t : Nat
deriving DecidableEq, Repr

/-- `EventCoordless::from(Event)`: truncation to the `(d, delta_t)` pair. -/
def EventCoordless.fromEvent (e : Event) : EventCoordless :=
  { d := e.d, delta_t := e.delta_t }

/-- The error type of `blocks.rs`. -/
inductive BlockError where
  | alreadyExists (idx : Nat)
deriving DecidableEq, Repr

/-- A block: `BLOCK_SIZE_BIG²` optional events in row-major order plus a
fill counter.  The fixed-size Rust array `[Option<EventCoordless>; N*N]`
becomes a list whose length is maintained as an invariant. -/
structure Block where
  events : List (Option EventCoordless)
  fill_count : Nat
deriving DecidableEq, Repr

/-- `Block::new` for side length `N`: all `N*N` slots empty, `fill_count = 0`.
The (commented-out) index arguments of the Rust constructor are dropped. -/
def Block.newB (N : Nat) : Block :=
  { events := List.replicate (N * N) none, fill_count := 0 }

/-- `Block::is_filled`. -/
def Block.is_filled (N : Nat) (b : Block) : Bool :=
  b.fill_count = N * N

/-- `Block::set_event(event, idx)`.  The Rust function indexes
`self.events[idx]` (a panic when `idx` is out of bounds, modelled by the
outer `none`), errors with `AlreadyExists` when the slot is occupied, and
otherwise stores `EventCoordless::from(*event)` and increments
`fill_count`.  The mutated block is returned alongside the `Result`. -/
def Block.set_event (b : Block) (event : Event) (idx : Nat) :
    Option (Except BlockError Unit × Block) :=
  match b.events[idx]? with
  | none => none
  | some (some _) => some (.error (.alreadyExists idx), b)
  | some none =>
      some (.ok (),
        { events := b.events.set idx (some (EventCoordless.fromEvent event)),
          fill_count := b.fill_count + 1 })

/-- Claim C3: for a slot index in bounds, `Block::set_event` fails with
`AlreadyExists{idx}` and returns the block unchanged when slot `idx` is
occupied; when the slot is empty it succeeds, stores
`EventCoordless::from(event)` at slot `idx`, increments `fill_count` by
exactly one, and leaves every other slot unchanged. -/
theorem block_set_event_spec (b : Block) (e : Event) (idx : Nat)
    (hidx : idx < b.events.length) :
    (∀ v, b.events[idx]? = some (some v) →
      b.set_event e idx = some (.error (.alreadyExists idx), b)) ∧
    (b.events[idx]? = some none →
      ∃ b', b.set_event e idx = some (.ok (), b') ∧
        b'.events[idx]? = some (some (EventCoordless.fromEvent e)) ∧
        b'.fill_count = b.fill_count + 1 ∧
        b'.events.length = b.events.length ∧
        ∀ j, j ≠ idx → b'.events[j]? = b.events[j]?) := by
  constructor
  · intro v hv
    simp [Block.set_event, hv]
  · intro hv
    refine ⟨{ events := b.events.set idx (some (EventCoordless.fromEvent e)),
              fill_count := b.fill_count + 1 },
      by simp [Block.set_event, hv], ?_, rfl, by simp, ?_⟩
    · simpa using List.getElem?_set_eq_of_lt (some (EventCoordless.fromEvent e)) hidx
    · intro j hj
      exact List.getElem?_set_ne (fun h => hj h.symm)

/-- Witness for C3 at a concrete block: slot 0 occupied, slot 1 empty. -/
theorem block_set_event_spec_witness :
    (0 < (Block.mk [some ⟨3, 5⟩, none] 1).events.length ∧
      (∀ v, (Block.mk [some ⟨3, 5⟩, none] 1).events[0]? = some (some v) →
        (Block.mk [some ⟨3, 5⟩, none] 1).set_event ⟨⟨0, 0, none⟩, 7, 9⟩ 0 =
          some (.error (.alreadyExists 0), Block.mk [some ⟨3, 5⟩, none] 1))) ∧
    (1 < (Block.mk [some ⟨3, 5⟩, none] 1).events.length ∧
      ((Block.mk [some ⟨3, 5⟩, none] 1).events[1]? = some none →
        ∃ b', (Block.mk [some ⟨3, 5⟩, none] 1).set_event ⟨⟨0, 0, none⟩, 7, 9⟩ 1 =
            some (.ok (), b') ∧
          b'.events[1]? = some (some (EventCoordless.fromEvent ⟨⟨0, 0, none⟩, 7, 9⟩)) ∧
          b'.fill_count = (Block.mk [some ⟨3, 5⟩, none] 1).fill_count + 1 ∧
          b'.events.length = (Block.mk [some ⟨3, 5⟩, none] 1).events.length ∧
          ∀ j, j ≠ 1 → b'.events[j]? = (Block.mk [some ⟨3, 5⟩, none] 1).events[j]?)) :=
  ⟨⟨by decide, (block_set_event_spec (Block.mk [some ⟨3, 5⟩, none] 1)
      ⟨⟨0, 0, none⟩, 7, 9⟩ 0 (by decide)).1⟩,
    ⟨by decide, (block_set_event_spec (Block.mk [some ⟨3, 5⟩, none] 1)
      ⟨⟨0, 0, none⟩, 7, 9⟩ 1 (by decide)).2⟩⟩

/-- Modelled from the spec: the `D_SHIFT` reconstruction table is defined
outside the visible fragment; the spec describes it as a precomputed
power-of-two table indexed by `d`.  Its length `L` is kept parametric. -/
def D_SHIFT (L : Nat) : List ℚ :=
  (List.range L).map fun i => (2 : ℚ) ^ i

/-- `SourceType` of the framer driver (only the variants used by
`scale_intensity.rs`). -/
inductive SourceType where
  | U8 | U16 | U32 | U64 | F32 | F64
deriving DecidableEq, Repr

/-- `FramedViewMode` of the transcoder (variants used by
`scale_intensity.rs`). -/
inductive FramedViewMode where
  | Intensity | D | DeltaT
deriving DecidableEq, Repr

/-- Rust's saturating float-to-unsigned cast `as uN` (`maxv = 2^N - 1`):
negative values clamp to `0`, values above `maxv` clamp to `maxv`,
otherwise truncate toward zero. -/
def rustCastU (maxv : Nat) (q : ℚ) : Nat :=
  if q < 0 then 0 else min maxv (Int.toNat ⌊q⌋)

/-- `event_to_intensity` from `scale_intensity.rs`: `0` for `d` at or
beyond the table length, otherwise the table entry divided by `delta_t`,
with `delta_t = 0` treated as elapsed time `1`. -/
def event_to_intensity (L : Nat) (event : Event) : ℚ :=
  if (D_SHIFT L).length ≤ event.d then 0
  else if event.delta_t = 0 then (D_SHIFT L).getD event.d 0
  else (D_SHIFT L).getD event.d 0 / (event.delta_t : ℚ)

/-- `<u8 as FrameValue>::get_frame_value`.  `todo!()` branches are `none`. -/
def get_frame_value_u8 (L : Nat) (event : Event) (source_type : SourceType)
    (tpf : Nat) (practical_d_max : ℚ) (delta_t_max : Nat)
    (view_mode : FramedViewMode) : Option Nat :=
  match view_mode with
  | .Intensity =>
      let intensity := event_to_intensity L event
      match source_type with
      | .U8 => some (rustCastU 255 (intensity * (tpf : ℚ)))
      | .U16 => some (rustCastU 255 (intensity / 65535 * (tpf : ℚ) * 255))
      | .U32 => some (rustCastU 255 (intensity / 4294967295 * (tpf : ℚ) * 255))
      | .U64 => some (rustCastU 255 (intensity / 18446744073709551615 * (tpf : ℚ) * 255))
      | .F32 => none
      | .F64 => none
  | .D => some (rustCastU 255 ((event.d : ℚ) / practical_d_max * 255))
  | .DeltaT => some (rustCastU 255 ((event.delta_t : ℚ) / (delta_t_max : ℚ) * 255))

/-- `<u16 as FrameValue>::get_frame_value`. -/
def get_frame_value_u16 (L : Nat) (event : Event) (source_type : SourceType)
    (tpf : Nat) (practical_d_max : ℚ) (delta_t_max : Nat)
    (view_mode : FramedViewMode) : Option Nat :=
  match view_mode with
  | .Intensity =>
      let intensity := event_to_intensity L event
      match source_type with
      | .U8 => some (rustCastU 65535 (intensity / 255 * (tpf : ℚ) * 65535))
      | .U16 => some (rustCastU 65535 (intensity * (tpf : ℚ)))
      | .U32 => some (rustCastU 65535 (intensity / 4294967295 * (tpf : ℚ) * 65535))
      | .U64 => some (rustCastU 65535 (intensity / 18446744073709551615 * (tpf : ℚ) * 65535))
      | .F32 => none
      | .F64 => none
  | .D => some (rustCastU 65535 ((event.d : ℚ) / practical_d_max * 65535))
  | .DeltaT => some (rustCastU 65535 ((event.delta_t : ℚ) / (delta_t_max : ℚ) * 65535))

/-- `<u32 as FrameValue>::get_frame_value`. -/
def get_frame_value_u32 (L : Nat) (event : Event) (source_type : SourceType)
    (tpf : Nat) (practical_d_max : ℚ) (delta_t_max : Nat)
    (view_mode : FramedViewMode) : Option Nat :=
  match view_mode with
  | .Intensity =>
      let intensity := event_to_intensity L event
      match source_type with
      | .U8 => some (rustCastU 4294967295 (intensity / 255 * (tpf : ℚ) * 4294967295))
      | .U16 => some (rustCastU 4294967295 (intensity / 65535 * (tpf : ℚ) * 4294967295))
      | .U32 => some (rustCastU 4294967295 (intensity * (tpf : ℚ)))
      | .U64 => some (rustCastU 4294967295 (intensity / 18446744073709551615 * (tpf : ℚ) * 4294967295))
      | .F32 => none
      | .F64 => none
  | .D => some (rustCastU 4294967295 ((event.d : ℚ) / practical_d_max * 4294967295))
  | .DeltaT => some (rustCastU 4294967295 ((event.delta_t : ℚ) / (delta_t_max : ℚ) * 4294967295))

/-- `<u64 as FrameValue>::get_frame_value`. -/
def get_frame_value_u64 (L : Nat) (event : Event) (source_type : SourceType)
    (tpf : Nat) (practical_d_max : ℚ) (delta_t_max : Nat)
    (view_mode : FramedViewMode) : Option Nat :=
  match view_mode with
  | .Intensity =>
      let intensity := event_to_intensity L event
      match source_type with
      | .U8 => some (rustCastU 18446744073709551615 (intensity / 255 * (tpf : ℚ) * 18446744073709551615))
      | .U16 => some (rustCastU 18446744073709551615 (intensity / 65535 * (tpf : ℚ) * 18446744073709551615))
      | .U32 => some (rustCastU 18446744073709551615 (intensity / 4294967295 * (tpf : ℚ) * 18446744073709551615))
      | .U64 => some (rustCastU 18446744073709551615 (intensity * (tpf : ℚ)))
      | .F32 => none
      | .F64 => none
  | .D => some (rustCastU 18446744073709551615 ((event.d : ℚ) / practical_d_max * 18446744073709551615))
  | .DeltaT => some (rustCastU 18446744073709551615 ((event.delta_t : ℚ) / (delta_t_max : ℚ) * 18446744073709551615))

/-- Entries of the (spec-modelled) table are the powers of two. -/
theorem D_SHIFT_getD (L d : Nat) (hd : d < L) :
    (D_SHIFT L).getD d 0 = (2 : ℚ) ^ d := by
  simp [D_SHIFT, List.getD, List.getElem?_map, List.getElem?_range, hd]

/-- Claim C8: `event_to_intensity` yields `0` when `d` is at or beyond the
table length; for `d` in range it yields the table entry itself when
`delta_t = 0` (elapsed time treated as `1`) and the table entry divided by
`delta_t` otherwise. -/
theorem event_to_intensity_spec (L : Nat) (e : Event) :
    ((D_SHIFT L).length ≤ e.d → event_to_intensity L e = 0) ∧
    (e.d < (D_SHIFT L).length → e.delta_t = 0 →
      event_to_intensity L e = (2 : ℚ) ^ e.d) ∧
    (e.d < (D_SHIFT L).length → e.delta_t ≠ 0 →
      event_to_intensity L e = (2 : ℚ) ^ e.d / (e.delta_t : ℚ)) := by
  have hlen : (D_SHIFT L).length = L := by simp [D_SHIFT]
  refine ⟨fun h => by simp [event_to_intensity, h], fun h h0 => ?_, fun h h0 => ?_⟩
  · rw [event_to_intensity, if_neg (by omega), if_pos h0, D_SHIFT_getD]
    omega
  · rw [event_to_intensity, if_neg (by omega), if_neg h0, D_SHIFT_getD]
    omega

/-- Witness for C8 with a table of length 8 and the events
`(d = 9)`, `(d = 3, delta_t = 0)` and `(d = 3, delta_t = 4)`. -/
theorem event_to_intensity_spec_witness :
    ((D_SHIFT 8).length ≤ (Event.mk ⟨0, 0, none⟩ 9 4).d →
      event_to_intensity 8 (Event.mk ⟨0, 0, none⟩ 9 4) = 0) ∧
    ((Event.mk ⟨0, 0, none⟩ 3 0).d < (D_SHIFT 8).length →
      (Event.mk ⟨0, 0, none⟩ 3 0).delta_t = 0 →
      event_to_intensity 8 (Event.mk ⟨0, 0, none⟩ 3 0) = (2 : ℚ) ^ 3) ∧
    ((Event.mk ⟨0, 0, none⟩ 3 4).d < (D_SHIFT 8).length →
      (Event.mk ⟨0, 0, none⟩ 3 4).delta_t ≠ 0 →
      event_to_intensity 8 (Event.mk ⟨0, 0, none⟩ 3 4) = (2 : ℚ) ^ 3 / 4) ∧
    (D_SHIFT 8).length ≤ 9 ∧ (3 : Nat) < (D_SHIFT 8).length :=
  ⟨(event_to_intensity_spec 8 (Event.mk ⟨0, 0, none⟩ 9 4)).1,
    (event_to_intensity_spec 8 (Event.mk ⟨0, 0, none⟩ 3 0)).2.1,
    by
      have h := (event_to_intensity_spec 8 (Event.mk ⟨0, 0, none⟩ 3 4)).2.2
      simpa using h,
    by simp [D_SHIFT], by simp [D_SHIFT]⟩

/-- Claim C9: in `Intensity` view mode, a floating-point source type makes
`get_frame_value` diverge (the `todo!()` panic, modelled as `none`) at
every output width. -/
theorem frame_value_float_unimplemented (L : Nat) (e : Event)
    (st : SourceType) (tpf : Nat) (pdm : ℚ) (dtm : Nat)
    (h : st = SourceType.F32 ∨ st = SourceType.F64) :
    get_frame_value_u8 L e st tpf pdm dtm FramedViewMode.Intensity = none ∧
    get_frame_value_u16 L e st tpf pdm dtm FramedViewMode.Intensity = none ∧
    get_frame_value_u32 L e st tpf pdm dtm FramedViewMode.Intensity = none ∧
    get_frame_value_u64 L e st tpf pdm dtm FramedViewMode.Intensity = none := by
  rcases h with h | h <;> subst h <;>
    exact ⟨rfl, rfl, rfl, rfl⟩

/-- Witness for C9 at `SourceType.F32`. -/
theorem frame_value_float_unimplemented_witness :
    (SourceType.F32 = SourceType.F32 ∨ SourceType.F32 = SourceType.F64) ∧
    (get_frame_value_u8 8 (Event.mk ⟨0, 0, none⟩ 3 4) SourceType.F32 10 5 100
        FramedViewMode.Intensity = none ∧
      get_frame_value_u16 8 (Event.mk ⟨0, 0, none⟩ 3 4) SourceType.F32 10 5 100
        FramedViewMode.Intensity = none ∧
      get_frame_value_u32 8 (Event.mk ⟨0, 0, none⟩ 3 4) SourceType.F32 10 5 100
        FramedViewMode.Intensity = none ∧
      get_frame_value_u64 8 (Event.mk ⟨0, 0, none⟩ 3 4) SourceType.F32 10 5 100
        FramedViewMode.Intensity = none) :=
  ⟨Or.inl rfl,
    frame_value_float_unimplemented 8 (Event.mk ⟨0, 0, none⟩ 3 4)
      SourceType.F32 10 5 100 (Or.inl rfl)⟩

/-- The saturating cast is monotone. -/
theorem rustCastU_mono (m : Nat) {q r : ℚ} (h : q ≤ r) :
    rustCastU m q ≤ rustCastU m r := by
  unfold rustCastU
  by_cases hq : q < 0
  · simp [hq]
  · rw [if_neg hq, if_neg (by push_neg at hq ⊢; linarith)]
    exact min_le_min (le_refl m) (Int.toNat_le_toNat (Int.floor_le_floor h))

/-- The `D` view-mode sample is monotone in `d` for a positive scale. -/
theorem d_mode_arg_mono {d1 d2 : Nat} {pdm : ℚ} (hp : 0 < pdm)
    (hd : d1 ≤ d2) (M : ℚ) (hM : 0 ≤ M) :
    (d1 : ℚ) / pdm * M ≤ (d2 : ℚ) / pdm * M := by
  have h1 : (d1 : ℚ) ≤ (d2 : ℚ) := by exact_mod_cast hd
  have h2 : (d1 : ℚ) / pdm ≤ (d2 : ℚ) / pdm := by gcongr
  exact mul_le_mul_of_nonneg_right h2 hM

/-- Claim C10: in view mode `D` with positive `practical_d_max`, the output
sample is monotone non-decreasing in `event.d` (for `d` below
`practical_d_max`) at every output width. -/
theorem frame_value_d_monotone (L : Nat) (e1 e2 : Event)
    (st : SourceType) (tpf : Nat) (pdm : ℚ) (dtm : Nat)
    (hp : 0 < pdm) (hd : e1.d ≤ e2.d)
    (h1 : (e1.d : ℚ) < pdm) (h2 : (e2.d : ℚ) < pdm) :
    (∃ v1 v2, get_frame_value_u8 L e1 st tpf pdm dtm FramedViewMode.D = some v1 ∧
      get_frame_value_u8 L e2 st tpf pdm dtm FramedViewMode.D = some v2 ∧ v1 ≤ v2) ∧
    (∃ v1 v2, get_frame_value_u16 L e1 st tpf pdm dtm FramedViewMode.D = some v1 ∧
      get_frame_value_u16 L e2 st tpf pdm dtm FramedViewMode.D = some v2 ∧ v1 ≤ v2) ∧
    (∃ v1 v2, get_frame_value_u32 L e1 st tpf pdm dtm FramedViewMode.D = some v1 ∧
      get_frame_value_u32 L e2 st tpf pdm dtm FramedViewMode.D = some v2 ∧ v1 ≤ v2) ∧
    (∃ v1 v2, get_frame_value_u64 L e1 st tpf pdm dtm FramedViewMode.D = some v1 ∧
      get_frame_value_u64 L e2 st tpf pdm dtm FramedViewMode.D = some v2 ∧ v1 ≤ v2) := by
  refine ⟨?_, ?_, ?_, ?_⟩ <;>
    exact ⟨_, _, rfl, rfl, rustCastU_mono _ (d_mode_arg_mono hp hd _ (by norm_num))⟩

/-- Witness for C10 with `d = 2` against `d = 3` below `practical_d_max = 5`. -/
theorem frame_value_d_monotone_witness :
    (0 : ℚ) < 5 ∧ (Event.mk ⟨0, 0, none⟩ 2 4).d ≤ (Event.mk ⟨0, 0, none⟩ 3 4).d ∧
    ((Event.mk ⟨0, 0, none⟩ 2 4).d : ℚ) < 5 ∧
    ((Event.mk ⟨0, 0, none⟩ 3 4).d : ℚ) < 5 ∧
    (∃ v1 v2,
      get_frame_value_u8 8 (Event.mk ⟨0, 0, none⟩ 2 4) SourceType.U8 10 5 100
        FramedViewMode.D = some v1 ∧
      get_frame_value_u8 8 (Event.mk ⟨0, 0, none⟩ 3 4) SourceType.U8 10 5 100
        FramedViewMode.D = some v2 ∧ v1 ≤ v2) :=
  ⟨by norm_num, by decide, by norm_num, by norm_num,
    (frame_value_d_monotone 8 (Event.mk ⟨0, 0, none⟩ 2 4) (Event.mk ⟨0, 0, none⟩ 3 4)
      SourceType.U8 10 5 100 (by norm_num) (by decide) (by norm_num) (by norm_num)).1⟩

/-- One transition of the cursor/direction state inside `gen_zigzag_order`'s
loop (the `if up {...} else {...}` block of `blocks.rs`). -/
def zzStep (N : Nat) : Bool × Nat × Nat → Bool × Nat × Nat
  | (true, y, x) =>
      if x = N - 1 then (false, y + 1, x)
      else if y = 0 then (false, y, x + 1)
      else (true, y - 1, x + 1)
  | (false, y, x) =>
      if y = N - 1 then (true, y, x + 1)
      else if x = 0 then (true, y + 1, x)
      else (false, y + 1, x - 1)

/-- The loop of `gen_zigzag_order`: it emits `y * N + x`, increments the
write index and breaks once `N * N` entries are written, so the emitted
entries are exactly `zzGo N (N * N) true 0 0`.  The state transition after
the final entry is computed but unused, matching the `break` placement. -/
def zzGo (N : Nat) : Nat → Bool → Nat → Nat → List Nat
  | 0, _, _, _ => []
  | k + 1, up, y, x =>
    (y * N + x) ::
      (let s := zzStep N (up, y, x)
       zzGo N k s.1 s.2.1 s.2.2)

/-- `gen_zigzag_order` for side length `N`: the traversal entries, each cast
to `u16` (`as u16` is `% 2^16` for these non-negative values). -/
def gen_zigzag_order (N : Nat) : List Nat :=
  (zzGo N (N * N) true 0 0).map (· % 65536)

/-- Number of cells on anti-diagonal `d` of an `N × N` block. -/
def diagLen (N d : Nat) : Nat :=
  min d (N - 1) - (d - min d (N - 1)) + 1

/-- Row-major indices of anti-diagonal `d` in traversal order: even
diagonals are walked upward (decreasing row), odd ones downward. -/
def diagCells (N d : Nat) : List Nat :=
  let hi := min d (N - 1)
  let lo := d - hi
  if d % 2 = 0 then
    (List.range (hi - lo + 1)).map fun i => (hi - i) * N + (d - (hi - i))
  else
    (List.range (hi - lo + 1)).map fun i => (lo + i) * N + (d - (lo + i))

/-- Cursor/direction state with which the traversal enters diagonal `d`. -/
def zzEntry (N d : Nat) : Bool × Nat × Nat :=
  if d % 2 = 0 then (true, min d (N - 1), d - min d (N - 1))
  else (false, d - min d (N - 1), min d (N - 1))

theorem zzGo_length (N : Nat) : ∀ (k : Nat) (up : Bool) (y x : Nat),
    (zzGo N k up y x).length = k := by
  intro k
  induction k with
  | zero => intro up y x; rfl
  | succ k ih => intro up y x; simp [zzGo, ih]

theorem zzGo_run_up (N d : Nat) :
    ∀ j k, (d - min d (N - 1)) + j ≤ min d (N - 1) →
      zzGo N (j + 1 + k) true ((d - min d (N - 1)) + j) (d - ((d - min d (N - 1)) + j)) =
        ((List.range (j + 1)).map fun i =>
          ((d - min d (N - 1)) + j - i) * N + (d - ((d - min d (N - 1)) + j - i))) ++
        (let s := zzStep N (true, d - min d (N - 1), d - (d - min d (N - 1)))
         zzGo N k s.1 s.2.1 s.2.2) := by
  set hi := min d (N - 1) with hhi
  set lo := d - hi with hlo
  have hhid : hi ≤ d := by omega
  intro j
  induction j with
  | zero =>
      intro k hj
      have h1 : 0 + 1 + k = k + 1 := by omega
      rw [h1]
      simp [zzGo, List.range_succ]
  | succ j ih =>
      intro k hj
      have hx1 : d - (lo + (j + 1)) ≠ N - 1 := by omega
      have hy1 : lo + (j + 1) ≠ 0 := by omega
      have hstep : zzStep N (true, lo + (j + 1), d - (lo + (j + 1))) =
          (true, lo + j, d - (lo + j)) := by
        rw [zzStep, if_neg hx1, if_neg hy1]
        have e1 : lo + (j + 1) - 1 = lo + j := by omega
        have e2 : d - (lo + (j + 1)) + 1 = d - (lo + j) := by omega
        rw [e1, e2]
      have h1 : (j + 1) + 1 + k = (j + 1 + k) + 1 := by omega
      rw [h1]
      rw [zzGo]
      simp only [hstep]
      rw [ih k (by omega)]
      conv_rhs => rw [List.range_succ_eq_map]
      simp only [Nat.succ_eq_add_one, List.map_cons, List.map_map, List.cons_append,
        Nat.sub_zero]
      congr 2
      apply List.map_congr_left
      intro a _
      simp only [Function.comp_apply]
      have heq : lo + (j + 1) - (a + 1) = lo + j - a := by omega
      rw [heq]

theorem zzGo_run_down (N d : Nat) :
    ∀ j k, j ≤ min d (N - 1) - (d - min d (N - 1)) →
      zzGo N (j + 1 + k) false (min d (N - 1) - j) (d - (min d (N - 1) - j)) =
        ((List.range (j + 1)).map fun i =>
          (min d (N - 1) - j + i) * N + (d - (min d (N - 1) - j + i))) ++
        (let s := zzStep N (false, min d (N - 1), d - min d (N - 1))
         zzGo N k s.1 s.2.1 s.2.2) := by
  set hi := min d (N - 1) with hhi
  set lo := d - hi with hlo
  have hhid : hi ≤ d := by omega
  intro j
  induction j with
  | zero =>
      intro k hj
      have h1 : 0 + 1 + k = k + 1 := by omega
      rw [h1]
      simp [zzGo, List.range_succ]
  | succ j ih =>
      intro k hj
      have hy1 : hi - (j + 1) ≠ N - 1 := by omega
      have hx1 : d - (hi - (j + 1)) ≠ 0 := by omega
      have hstep : zzStep N (false, hi - (j + 1), d - (hi - (j + 1))) =
          (false, hi - j, d - (hi - j)) := by
        rw [zzStep, if_neg hy1, if_neg hx1]
        have e1 : hi - (j + 1) + 1 = hi - j := by omega
        have e2 : d - (hi - (j + 1)) - 1 = d - (hi - j) := by omega
        rw [e1, e2]
      have h1 : (j + 1) + 1 + k = (j + 1 + k) + 1 := by omega
      rw [h1]
      rw [zzGo]
      simp only [hstep]
      rw [ih k (by omega)]
      conv_rhs => rw [List.range_succ_eq_map]
      simp only [Nat.succ_eq_add_one, List.map_cons, List.map_map, List.cons_append,
        Nat.add_zero]
      congr 2
      apply List.map_congr_left
      intro a _
      simp only [Function.comp_apply]
      have heq : hi - (j + 1) + (a + 1) = hi - j + a := by omega
      rw [heq]

theorem zzStep_end_up (N d : Nat) (hN : 0 < N) (heven : d % 2 = 0) :
    zzStep N (true, d - min d (N - 1), d - (d - min d (N - 1))) = zzEntry N (d + 1) := by
  have hodd : ¬((d + 1) % 2 = 0) := by omega
  rw [zzEntry, if_neg hodd, zzStep]
  by_cases hx : d - (d - min d (N - 1)) = N - 1
  · rw [if_pos hx]
    simp only [Prod.mk.injEq]
    exact ⟨trivial, by omega, by omega⟩
  · rw [if_neg hx]
    have hy : d - min d (N - 1) = 0 := by omega
    rw [if_pos hy]
    simp only [Prod.mk.injEq]
    exact ⟨trivial, by omega, by omega⟩

theorem zzStep_end_down (N d : Nat) (hN : 0 < N) (hodd : d % 2 = 1) :
    zzStep N (false, min d (N - 1), d - min d (N - 1)) = zzEntry N (d + 1) := by
  have he : (d + 1) % 2 = 0 := by omega
  rw [zzEntry, if_pos he, zzStep]
  by_cases hy : min d (N - 1) = N - 1
  · rw [if_pos hy]
    simp only [Prod.mk.injEq]
    exact ⟨trivial, by omega, by omega⟩
  · rw [if_neg hy]
    have hx : d - min d (N - 1) = 0 := by omega
    rw [if_pos hx]
    simp only [Prod.mk.injEq]
    exact ⟨trivial, by omega, by omega⟩

/-- Concatenation of the diagonals `d, d+1, …, d+t-1` in traversal order. -/
def chainCells (N : Nat) : Nat → Nat → List Nat
  | _, 0 => []
  | d, t + 1 => diagCells N d ++ chainCells N (d + 1) t

/-- Total number of cells on the diagonals `d, …, d+t-1`. -/
def chainFuel (N : Nat) : Nat → Nat → Nat
  | _, 0 => 0
  | d, t + 1 => diagLen N d + chainFuel N (d + 1) t

theorem zz_chain (N : Nat) (hN : 0 < N) :
    ∀ t d, d + t = 2 * N - 1 →
      zzGo N (chainFuel N d t) (zzEntry N d).1 (zzEntry N d).2.1 (zzEntry N d).2.2 =
        chainCells N d t := by
  intro t
  induction t with
  | zero => intro d hd; rfl
  | succ t ih =>
      intro d hd
      have hle : d - min d (N - 1) ≤ min d (N - 1) := by omega
      rcases Nat.even_or_odd d with he | ho
      · have heven : d % 2 = 0 := Nat.even_iff.mp he
        have hstart : (d - min d (N - 1)) + (min d (N - 1) - (d - min d (N - 1))) =
            min d (N - 1) := by omega
        have hfuel : chainFuel N d (t + 1) =
            ((min d (N - 1) - (d - min d (N - 1))) + 1) + chainFuel N (d + 1) t := by
          rw [chainFuel, diagLen]
        have hrun := zzGo_run_up N d (min d (N - 1) - (d - min d (N - 1)))
          (chainFuel N (d + 1) t) (by omega)
        simp only [hstart] at hrun
        rw [zzEntry, if_pos heven]
        simp only []
        rw [hfuel, hrun, chainCells, diagCells, if_pos heven]
        congr 1
        cases t with
        | zero => rfl
        | succ t' =>
            have hend := zzStep_end_up N d hN heven
            rw [hend]
            exact ih (d + 1) (by omega)
      · have hodd : d % 2 = 1 := Nat.odd_iff.mp ho
        have hodd2 : ¬(d % 2 = 0) := by omega
        have hfuel : chainFuel N d (t + 1) =
            ((min d (N - 1) - (d - min d (N - 1))) + 1) + chainFuel N (d + 1) t := by
          rw [chainFuel, diagLen]
        have hrun := zzGo_run_down N d (min d (N - 1) - (d - min d (N - 1)))
          (chainFuel N (d + 1) t) (by omega)
        have hstart2 : min d (N - 1) - (min d (N - 1) - (d - min d (N - 1))) =
            d - min d (N - 1) := by omega
        have hx2 : d - (d - min d (N - 1)) = min d (N - 1) := by omega
        simp only [hstart2] at hrun
        simp only [hx2] at hrun
        rw [zzEntry, if_neg hodd2]
        simp only []
        rw [hfuel, hrun, chainCells, diagCells, if_neg hodd2]
        congr 1
        cases t with
        | zero => rfl
        | succ t' =>
            have hend := zzStep_end_down N d hN hodd
            rw [hend]
            exact ih (d + 1) (by omega)

theorem slot_div (N y x : Nat) (hx : x < N) : (y * N + x) / N = y := by
  rw [Nat.mul_comm, Nat.mul_add_div (by omega), Nat.div_eq_of_lt hx, Nat.add_zero]

theorem slot_mod (N y x : Nat) (hx : x < N) : (y * N + x) % N = x := by
  rw [Nat.mul_comm, Nat.mul_add_mod, Nat.mod_eq_of_lt hx]

theorem sq_bound (N y x : Nat) (hN : 0 < N) (hy : y ≤ N - 1) (hx : x ≤ N - 1) :
    y * N + x < N * N := by
  have h1 : y * N ≤ (N - 1) * N := Nat.mul_le_mul_right N hy
  have h2 : (N - 1) * N + N = N * N := by
    rw [← Nat.succ_mul, Nat.succ_eq_add_one, Nat.sub_add_cancel hN]
  omega

theorem mem_diagCells (N d s : Nat) (hd : d ≤ 2 * N - 2) (hs : s ∈ diagCells N d) :
    ∃ y, d - min d (N - 1) ≤ y ∧ y ≤ min d (N - 1) ∧ s = y * N + (d - y) := by
  rcases Nat.even_or_odd d with he | ho
  · have heven : d % 2 = 0 := Nat.even_iff.mp he
    simp only [diagCells, if_pos heven, List.mem_map, List.mem_range] at hs
    obtain ⟨i, hi, rfl⟩ := hs
    exact ⟨min d (N - 1) - i, by omega, by omega, rfl⟩
  · have h3 : d % 2 = 1 := Nat.odd_iff.mp ho
    have hodd : ¬(d % 2 = 0) := by omega
    simp only [diagCells, if_neg hodd, List.mem_map, List.mem_range] at hs
    obtain ⟨i, hi, rfl⟩ := hs
    exact ⟨d - min d (N - 1) + i, by omega, by omega, rfl⟩

theorem diag_elem_lt (N d s : Nat) (hN : 0 < N) (hd : d ≤ 2 * N - 2)
    (hs : s ∈ diagCells N d) : s < N * N := by
  obtain ⟨y, hylo, hyhi, rfl⟩ := mem_diagCells N d s hd hs
  exact sq_bound N y (d - y) hN (by omega) (by omega)

theorem diag_elem_sum (N d s : Nat) (hN : 0 < N) (hd : d ≤ 2 * N - 2)
    (hs : s ∈ diagCells N d) : s / N + s % N = d := by
  obtain ⟨y, hylo, hyhi, rfl⟩ := mem_diagCells N d s hd hs
  rw [slot_div N y (d - y) (by omega), slot_mod N y (d - y) (by omega)]
  omega

theorem diagCells_nodup (N d : Nat) (hN : 0 < N) (hd : d ≤ 2 * N - 2) :
    (diagCells N d).Nodup := by
  rcases Nat.even_or_odd d with he | ho
  · have heven : d % 2 = 0 := Nat.even_iff.mp he
    simp only [diagCells, if_pos heven]
    apply List.Nodup.map_on _ (List.nodup_range _)
    intro i hi j hj hij
    simp only [List.mem_range] at hi hj
    have h1 : (min d (N - 1) - i) * N + (d - (min d (N - 1) - i)) ≥ 0 := by omega
    have d1 := slot_div N (min d (N - 1) - i) (d - (min d (N - 1) - i)) (by omega)
    have d2 := slot_div N (min d (N - 1) - j) (d - (min d (N - 1) - j)) (by omega)
    have : min d (N - 1) - i = min d (N - 1) - j := by rw [← d1, ← d2, hij]
    omega
  · have h3 : d % 2 = 1 := Nat.odd_iff.mp ho
    have hodd : ¬(d % 2 = 0) := by omega
    simp only [diagCells, if_neg hodd]
    apply List.Nodup.map_on _ (List.nodup_range _)
    intro i hi j hj hij
    simp only [List.mem_range] at hi hj
    have d1 := slot_div N (d - min d (N - 1) + i) (d - (d - min d (N - 1) + i)) (by omega)
    have d2 := slot_div N (d - min d (N - 1) + j) (d - (d - min d (N - 1) + j)) (by omega)
    have : d - min d (N - 1) + i = d - min d (N - 1) + j := by rw [← d1, ← d2, hij]
    omega

theorem mem_diagCells_of_yx (N y x : Nat) (hN : 0 < N) (hy : y < N) (hx : x < N) :
    y * N + x ∈ diagCells N (y + x) := by
  rcases Nat.even_or_odd (y + x) with he | ho
  · have heven : (y + x) % 2 = 0 := Nat.even_iff.mp he
    simp only [diagCells, if_pos heven, List.mem_map, List.mem_range]
    refine ⟨min (y + x) (N - 1) - y, by omega, ?_⟩
    have h1 : min (y + x) (N - 1) - (min (y + x) (N - 1) - y) = y := by omega
    rw [h1]
    have h2 : y + x - y = x := by omega
    rw [h2]
  · have h3 : (y + x) % 2 = 1 := Nat.odd_iff.mp ho
    have hodd : ¬((y + x) % 2 = 0) := by omega
    simp only [diagCells, if_neg hodd, List.mem_map, List.mem_range]
    refine ⟨y - ((y + x) - min (y + x) (N - 1)), by omega, ?_⟩
    have h1 : (y + x) - min (y + x) (N - 1) + (y - ((y + x) - min (y + x) (N - 1))) = y := by
      omega
    rw [h1]
    have h2 : y + x - y = x := by omega
    rw [h2]

theorem exists_diag (N s : Nat) (hN : 0 < N) (hs : s < N * N) :
    ∃ d, d ≤ 2 * N - 2 ∧ s ∈ diagCells N d := by
  have hy : s / N < N := Nat.div_lt_of_lt_mul hs
  have hx : s % N < N := Nat.mod_lt s hN
  have hsum : s / N * N + s % N = s := by
    rw [Nat.mul_comm]
    exact Nat.div_add_mod s N
  refine ⟨s / N + s % N, by omega, ?_⟩
  have h := mem_diagCells_of_yx N (s / N) (s % N) hN hy hx
  rwa [hsum] at h

theorem mem_chainCells (N s : Nat) :
    ∀ t d, s ∈ chainCells N d t ↔ ∃ j, d ≤ j ∧ j < d + t ∧ s ∈ diagCells N j := by
  intro t
  induction t with
  | zero =>
      intro d
      simp only [chainCells, List.not_mem_nil, false_iff]
      rintro ⟨j, h1, h2, _⟩
      omega
  | succ t ih =>
      intro d
      simp only [chainCells, List.mem_append, ih (d + 1)]
      constructor
      · rintro (h | ⟨j, h1, h2, h3⟩)
        · exact ⟨d, le_refl d, by omega, h⟩
        · exact ⟨j, by omega, by omega, h3⟩
      · rintro ⟨j, h1, h2, h3⟩
        rcases Nat.eq_or_lt_of_le h1 with rfl | hlt
        · exact Or.inl h3
        · exact Or.inr ⟨j, by omega, by omega, h3⟩

theorem chainCells_nodup (N : Nat) (hN : 0 < N) :
    ∀ t d, d + t ≤ 2 * N - 1 → (chainCells N d t).Nodup := by
  intro t
  induction t with
  | zero => intro d _; exact List.nodup_nil
  | succ t ih =>
      intro d hd
      rw [chainCells, List.nodup_append]
      refine ⟨diagCells_nodup N d hN (by omega), ih (d + 1) (by omega), ?_⟩
      intro a ha ha2
      rw [mem_chainCells] at ha2
      obtain ⟨j, hj1, hj2, hj3⟩ := ha2
      have e1 := diag_elem_sum N d a hN (by omega) ha
      have e2 := diag_elem_sum N j a hN (by omega) hj3
      omega

theorem chainCells_lt (N : Nat) (hN : 0 < N) (t d s : Nat) (hd : d + t ≤ 2 * N - 1)
    (hs : s ∈ chainCells N d t) : s < N * N := by
  rw [mem_chainCells] at hs
  obtain ⟨j, hj1, hj2, hj3⟩ := hs
  exact diag_elem_lt N j s hN (by omega) hj3

theorem chainCells_length (N : Nat) :
    ∀ t d, (chainCells N d t).length = chainFuel N d t := by
  intro t
  induction t with
  | zero => intro d; rfl
  | succ t ih =>
      intro d
      rw [chainCells, chainFuel, List.length_append, ih (d + 1)]
      congr 1
      rcases Nat.even_or_odd d with he | ho
      · have heven : d % 2 = 0 := Nat.even_iff.mp he
        simp [diagCells, diagLen, if_pos heven]
      · have h3 : d % 2 = 1 := Nat.odd_iff.mp ho
        have hodd : ¬(d % 2 = 0) := by omega
        simp [diagCells, diagLen, if_neg hodd]

theorem chainCells_perm (N : Nat) (hN : 0 < N) :
    (chainCells N 0 (2 * N - 1)).Perm (List.range (N * N)) := by
  have hnd := chainCells_nodup N hN (2 * N - 1) 0 (by omega)
  have hsub : chainCells N 0 (2 * N - 1) ⊆ List.range (N * N) := by
    intro s hs
    rw [List.mem_range]
    exact chainCells_lt N hN (2 * N - 1) 0 s (by omega) hs
  have hsub2 : List.range (N * N) ⊆ chainCells N 0 (2 * N - 1) := by
    intro s hs
    rw [List.mem_range] at hs
    obtain ⟨j, hj, hmem⟩ := exists_diag N s hN hs
    rw [mem_chainCells]
    exact ⟨j, by omega, by omega, hmem⟩
  have sp1 := List.subperm_of_subset hnd hsub
  have sp2 := List.subperm_of_subset (List.nodup_range _) hsub2
  exact sp1.perm_of_length_le sp2.length_le

theorem zzGo_eq_chain (N : Nat) (hN : 0 < N) :
    zzGo N (N * N) true 0 0 = chainCells N 0 (2 * N - 1) := by
  have hch := zz_chain N hN (2 * N - 1) 0 (by omega)
  have hentry : zzEntry N 0 = (true, 0, 0) := by simp [zzEntry]
  rw [hentry] at hch
  have hlen : chainFuel N 0 (2 * N - 1) = N * N := by
    have hl1 := chainCells_length N (2 * N - 1) 0
    have hl2 := (chainCells_perm N hN).length_eq
    rw [List.length_range] at hl2
    omega
  rwa [hlen] at hch

theorem getLast?_append_ne (l1 l2 : List Nat) (h : l2 ≠ []) :
    (l1 ++ l2).getLast? = l2.getLast? := by
  rw [List.getLast?_append]
  cases l2 with
  | nil => exact absurd rfl h
  | cons a t => simp [List.getLast?_cons]

theorem diagCells_ne_nil (N d : Nat) : diagCells N d ≠ [] := by
  apply List.ne_nil_of_length_pos
  by_cases hp : d % 2 = 0
  · simp [diagCells, if_pos hp]
  · simp [diagCells, if_neg hp]

theorem chainCells_ne_nil (N d t : Nat) (ht : 1 ≤ t) : chainCells N d t ≠ [] := by
  cases t with
  | zero => omega
  | succ t =>
      rw [chainCells]
      intro hcon
      exact diagCells_ne_nil N d (List.append_eq_nil.mp hcon).1

theorem chainCells_getLast (N : Nat) (hN : 0 < N) :
    ∀ t d, d + t = 2 * N - 1 → 1 ≤ t →
      (chainCells N d t).getLast? = some ((N - 1) * N + (N - 1)) := by
  intro t
  induction t with
  | zero => intro d _ h; omega
  | succ t ih =>
      intro d hd _
      cases t with
      | zero =>
          have hdd : d = 2 * N - 2 := by omega
          subst hdd
          rw [chainCells, chainCells, List.append_nil]
          have heven : (2 * N - 2) % 2 = 0 := by omega
          simp only [diagCells, if_pos heven]
          have hm1 : min (2 * N - 2) (N - 1) = N - 1 := by omega
          rw [hm1]
          have hm2 : (N - 1) - ((2 * N - 2) - (N - 1)) + 1 = 1 := by omega
          rw [hm2]
          have hlist : (List.range 1).map
              (fun i => (N - 1 - i) * N + ((2 * N - 2) - (N - 1 - i))) =
              [(N - 1) * N + (N - 1)] := by
            have hr1 : List.range 1 = [0] := rfl
            simp only [hr1, List.map_cons, List.map_nil, List.cons.injEq, and_true,
              Nat.sub_zero]
            omega
          rw [hlist]
          rfl
      | succ t' =>
          rw [chainCells]
          rw [getLast?_append_ne _ _ (chainCells_ne_nil N (d + 1) (t' + 1) (by omega))]
          exact ih (d + 1) (by omega) (by omega)

theorem gen_head (N : Nat) (hN : 0 < N) : (gen_zigzag_order N).head? = some 0 := by
  rw [gen_zigzag_order, List.head?_map]
  obtain ⟨m, hm⟩ : ∃ m, N * N = m + 1 := ⟨N * N - 1, by have := Nat.mul_pos hN hN; omega⟩
  rw [hm, zzGo]
  simp

/-- Claim C2: for any positive side length `N` (with `N ≤ 256` so that the
`u16` cast is lossless; the repository's constant satisfies this), the
compile-time zig-zag order is a permutation of `[0, N²)` — sorted it is
exactly `0, …, N²-1` with no duplicates — whose first entry is slot `0`
and whose last entry is slot `N² - 1`. -/
theorem zigzag_order_bijection (N : Nat) (h1 : 0 < N) (h2 : N ≤ 256) :
    (gen_zigzag_order N).Perm (List.range (N * N)) ∧
    (gen_zigzag_order N).Nodup ∧
    (gen_zigzag_order N).head? = some 0 ∧
    (gen_zigzag_order N).getLast? = some (N * N - 1) := by
  have hsq : N * N ≤ 65536 := by
    calc N * N ≤ 256 * 256 := Nat.mul_le_mul h2 h2
    _ = 65536 := rfl
  have hmain : gen_zigzag_order N = chainCells N 0 (2 * N - 1) := by
    rw [gen_zigzag_order, zzGo_eq_chain N h1]
    have hmod : ∀ s ∈ chainCells N 0 (2 * N - 1), s % 65536 = s := by
      intro s hs
      exact Nat.mod_eq_of_lt
        (lt_of_lt_of_le (chainCells_lt N h1 (2 * N - 1) 0 s (by omega) hs) hsq)
    calc (chainCells N 0 (2 * N - 1)).map (· % 65536)
        = (chainCells N 0 (2 * N - 1)).map id := List.map_congr_left hmod
      _ = chainCells N 0 (2 * N - 1) := List.map_id _
  refine ⟨?_, ?_, gen_head N h1, ?_⟩
  · rw [hmain]
    exact chainCells_perm N h1
  · rw [hmain]
    exact chainCells_nodup N h1 (2 * N - 1) 0 (by omega)
  · rw [hmain, chainCells_getLast N h1 (2 * N - 1) 0 (by omega) (by omega)]
    have hx : (N - 1) * N + N = N * N := by
      rw [← Nat.succ_mul, Nat.succ_eq_add_one, Nat.sub_add_cancel h1]
    congr 1
    omega


/-- Witness for C2 at side length 4. -/
theorem zigzag_order_bijection_witness :
    0 < 4 ∧ (4 : Nat) ≤ 256 ∧
    ((gen_zigzag_order 4).Perm (List.range (4 * 4)) ∧
      (gen_zigzag_order 4).Nodup ∧
      (gen_zigzag_order 4).head? = some 0 ∧
      (gen_zigzag_order 4).getLast? = some (4 * 4 - 1)) :=
  ⟨by decide, by decide, zigzag_order_bijection 4 (by decide) (by decide)⟩

/-- The `ZigZag<'a>` iterator state: an (immutable) reference to a block,
a reference to an order table and the current position `idx`. -/
structure ZigZag where
  block : Block
  order : List Nat
  idx : Nat
deriving DecidableEq, Repr

/-- `<ZigZag as Iterator>::next`: increments `idx`, then reads
`order[idx - 1]` and `events[that]` through `get_unchecked`.  An
out-of-bounds unchecked read is undefined behaviour, modelled by the outer
`none`; otherwise the yielded item is the optional stored event. -/
def ZigZag.next (z : ZigZag) : Option (Option EventCoordless × ZigZag) :=
  let i := z.idx + 1
  match z.order[i - 1]? with
  | none => none
  | some o =>
    match z.block.events[o]? with
    | none => none
    | some item => some (item, { z with idx := i })

/-- Drawing `k` items from the iterator, failing if any call hits
undefined behaviour. -/
def ZigZag.takeItems : Nat → ZigZag → Option (List (Option EventCoordless) × ZigZag)
  | 0, z => some ([], z)
  | k + 1, z =>
    match z.next with
    | none => none
    | some (item, z') =>
      match ZigZag.takeItems k z' with
      | none => none
      | some (l, z'') => some (item :: l, z'')

/-- Auxiliary induction for the iterator: from position `i`, `k` draws stay
within the table and yield the slots `order[i..i+k)`. -/
theorem takeItems_go (b : Block) (order : List Nat)
    (hvalid : ∀ o ∈ order, o < b.events.length) :
    ∀ (k i : Nat), i + k ≤ order.length →
      ZigZag.takeItems k ⟨b, order, i⟩ =
        some (((order.drop i).take k).map (fun o => b.events.getD o none),
          ⟨b, order, i + k⟩) := by
  intro k
  induction k with
  | zero =>
      intro i hi
      simp [ZigZag.takeItems]
  | succ k ih =>
      intro i hi
      have hilt : i < order.length := by omega
      have ho : order[i - 0]? = some order[i] := by
        simp [List.getElem?_eq_getElem hilt]
      have hov : order[i] < b.events.length := hvalid _ (List.getElem_mem hilt)
      have he : b.events[order[i]]? = some (b.events[order[i]]) :=
        List.getElem?_eq_getElem hov
      rw [ZigZag.takeItems, ZigZag.next]
      simp only [Nat.add_sub_cancel]
      rw [List.getElem?_eq_getElem hilt]
      simp only []
      rw [he]
      simp only []
      rw [ih (i + 1) (by omega)]
      simp only []
      rw [List.drop_eq_getElem_cons hilt]
      simp only [List.take_succ_cons, List.map_cons]
      have hgetD : b.events.getD order[i] none = b.events[order[i]] :=
        List.getD_eq_getElem b.events none hov
      rw [hgetD]
      have harith : i + (k + 1) = i + 1 + k := by omega
      rw [harith]

/-- Claim C4: over a block with `L = N²` slots and an order table of `L`
in-range entries, drawing `N²` items from a fresh `ZigZag` iterator is
well-defined (so the table is never read past index `N²-1`), yields for
each `k` the content of slot `order[k]`, and leaves the block and table
unchanged (final state only advances `idx` to `N²`). -/
theorem zigzag_iter_spec (b : Block) (order : List Nat) (L : Nat)
    (hb : b.events.length = L) (ho : order.length = L)
    (hvalid : ∀ o ∈ order, o < L) :
    ZigZag.takeItems L ⟨b, order, 0⟩ =
      some (order.map (fun o => b.events.getD o none), ⟨b, order, L⟩) := by
  have hvalid2 : ∀ o ∈ order, o < b.events.length := by
    intro o hm
    rw [hb]
    exact hvalid o hm
  have h := takeItems_go b order hvalid2 L 0 (by omega)
  have htake : order.take L = order := List.take_of_length_le (le_of_eq ho)
  simpa [htake] using h


/-- Witness for C4: a 2×2 block with two filled slots, order `[0, 3, 1, 2]`. -/
theorem zigzag_iter_spec_witness :
    ((Block.mk [some ⟨1, 2⟩, none, none, some ⟨3, 4⟩] 2).events.length = 4 ∧
      ([0, 3, 1, 2] : List Nat).length = 4 ∧
      (∀ o ∈ ([0, 3, 1, 2] : List Nat), o < 4)) ∧
    ZigZag.takeItems 4 ⟨Block.mk [some ⟨1, 2⟩, none, none, some ⟨3, 4⟩] 2, [0, 3, 1, 2], 0⟩ =
      some (([0, 3, 1, 2] : List Nat).map
          (fun o => (Block.mk [some ⟨1, 2⟩, none, none, some ⟨3, 4⟩] 2).events.getD o none),
        ⟨Block.mk [some ⟨1, 2⟩, none, none, some ⟨3, 4⟩] 2, [0, 3, 1, 2], 4⟩) :=
  ⟨⟨by decide, by decide, by decide⟩,
    zigzag_iter_spec (Block.mk [some ⟨1, 2⟩, none, none, some ⟨3, 4⟩] 2) [0, 3, 1, 2] 4
      (by decide) (by decide) (by decide)⟩

/-- The `Cube` of `blocks.rs`: three growable per-channel block sequences,
the tile indices, and one per-channel "current block" index map. -/
structure Cube where
  blocks_r : List Block
  blocks_g : List Block
  blocks_b : List Block
  cube_idx_y : Nat
  cube_idx_x : Nat
  cube_idx_c : Nat
  block_idx_map_r : List Nat
  block_idx_map_g : List Nat
  block_idx_map_b : List Nat
deriving DecidableEq, Repr

/-- `Cube::new`: each channel starts with one empty block and a zeroed
index map. -/
def Cube.new (N cube_idx_y cube_idx_x cube_idx_c : Nat) : Cube :=
  { blocks_r := [Block.newB N]
    blocks_g := [Block.newB N]
    blocks_b := [Block.newB N]
    cube_idx_y := cube_idx_y
    cube_idx_x := cube_idx_x
    cube_idx_c := cube_idx_c
    block_idx_map_r := List.replicate (N * N) 0
    block_idx_map_g := List.replicate (N * N) 0
    block_idx_map_b := List.replicate (N * N) 0 }

/-- `Cube::event_coord_to_block_idx`: the intra-tile row-major slot index
(`usize` subtraction embedded as truncated `Nat` subtraction; in-tile
coordinates never underflow) and the colour channel (`unwrap_or(0)`). -/
def Cube.event_coord_to_block_idx (N : Nat) (c : Cube) (event : Event) : Nat × Nat :=
  let idx_y := event.coord.y - c.cube_idx_y / N
  let idx_x := event.coord.x - c.cube_idx_x / N
  (idx_y * N + idx_x, event.coord.c.getD 0)

/-- `set_event_for_channel`: reads `block_idx_map[idx]` (panic if out of
bounds), pushes one fresh block when the current index reaches the end of
the sequence, delegates to `Block::set_event` on
`block_vec[block_idx_map[idx]]`, and advances the index map only on
success.  The updated sequence and map are returned alongside the result;
`none` models the index panics. -/
def set_event_for_channel (N : Nat) (block_vec : List Block) (block_idx_map : List Nat)
    (event : Event) (idx : Nat) :
    Option (Except BlockError Unit × List Block × List Nat) :=
  match block_idx_map[idx]? with
  | none => none
  | some cur =>
    let bv := if block_vec.length ≤ cur then block_vec ++ [Block.newB N] else block_vec
    match bv[cur]? with
    | none => none
    | some blk =>
      match blk.set_event event idx with
      | none => none
      | some (res, blk') =>
        match res with
        | .ok _ => some (.ok (), bv.set cur blk', block_idx_map.set idx (cur + 1))
        | .error er => some (.error er, bv.set cur blk', block_idx_map)

/-- `Cube::set_event`: routes by channel 0/1/2 to the corresponding block
sequence and index map; any other channel hits the `panic!(\"Invalid
color\")` arm, modelled as `none`.  The Rust `match` is embedded as an
equivalent if-chain on the channel value. -/
def Cube.set_event (N : Nat) (c : Cube) (event : Event) :
    Option (Except BlockError Unit × Cube) :=
  if (c.event_coord_to_block_idx N event).2 = 0 then
    (set_event_for_channel N c.blocks_r c.block_idx_map_r event
        (c.event_coord_to_block_idx N event).1).map
      (fun r => (r.1, { c with blocks_r := r.2.1, block_idx_map_r := r.2.2 }))
  else if (c.event_coord_to_block_idx N event).2 = 1 then
    (set_event_for_channel N c.blocks_g c.block_idx_map_g event
        (c.event_coord_to_block_idx N event).1).map
      (fun r => (r.1, { c with blocks_g := r.2.1, block_idx_map_g := r.2.2 }))
  else if (c.event_coord_to_block_idx N event).2 = 2 then
    (set_event_for_channel N c.blocks_b c.block_idx_map_b event
        (c.event_coord_to_block_idx N event).1).map
      (fun r => (r.1, { c with blocks_b := r.2.1, block_idx_map_b := r.2.2 }))
  else none

/-- One caller-side `set_event` call: the cube state after the call
(identical on `AlreadyExists`, since the error path mutates nothing);
`none` on a panic. -/
def cubeStep (N : Nat) (c : Cube) (event : Event) : Option Cube :=
  (Cube.set_event N c event).map (·.2)

/-- Feeding a list of events into a cube, one `set_event` call per event. -/
def cubeRunFrom (N : Nat) (c : Cube) (events : List Event) : Option Cube :=
  events.foldlM (cubeStep N) c

/-- The reachable states: a fresh `Cube` followed by a sequence of
`set_event` calls. -/
def cubeRun (N iy ix ic : Nat) (events : List Event) : Option Cube :=
  cubeRunFrom N (Cube.new N iy ix ic) events

/-- Per-channel invariant: the sequence is nonempty, the map has `N²`
entries, every block has `N²` slots, every map entry is at most the
sequence length (one past the end is allowed, the push being lazy), and
every block at or after a slot's current index still has that slot empty. -/
def chanInv (N : Nat) (blocks : List Block) (map : List Nat) : Prop :=
  0 < blocks.length ∧ map.length = N * N ∧
  (∀ (k : Nat) (b : Block), blocks[k]? = some b → b.events.length = N * N) ∧
  (∀ i, i < N * N → (map[i]?).getD 0 ≤ blocks.length) ∧
  (∀ i, i < N * N → ∀ (k : Nat) (b : Block), (map[i]?).getD 0 ≤ k → blocks[k]? = some b →
    b.events[i]? = some none)

/-- Setting the element at position `l.length` of `l ++ [a]`. -/
theorem set_append_last {α : Type} (l : List α) (a b : α) :
    (l ++ [a]).set l.length b = l ++ [b] := by
  induction l with
  | nil => rfl
  | cons x t ih =>
      show x :: ((t ++ [a]).set t.length b) = x :: (t ++ [b])
      rw [ih]

/-- Master lemma: under the channel invariant and an in-range slot,
`set_event_for_channel` always succeeds (no panic, no `AlreadyExists`),
preserves the invariant, grows the sequence by one block exactly when the
slot's current index has reached the end, and bumps that slot's index. -/
theorem set_event_for_channel_ok (N : Nat) (blocks : List Block) (map : List Nat)
    (e : Event) (idx : Nat) (hinv : chanInv N blocks map) (hidx : idx < N * N) :
    ∃ blocks' map',
      set_event_for_channel N blocks map e idx = some (Except.ok (), blocks', map') ∧
      chanInv N blocks' map' ∧
      blocks'.length = (if blocks.length ≤ (map[idx]?).getD 0 then blocks.length + 1
        else blocks.length) ∧
      map' = map.set idx ((map[idx]?).getD 0 + 1) := by
  obtain ⟨hpos, hmaplen, hblen, hbound, hempty⟩ := hinv
  have hidxm : idx < map.length := by omega
  obtain ⟨cur, hcur⟩ : ∃ cur, map[idx]? = some cur :=
    ⟨map[idx], List.getElem?_eq_getElem hidxm⟩
  have hcur2 : (map[idx]?).getD 0 = cur := by rw [hcur]; rfl
  have hcurle : cur ≤ blocks.length := by
    have := hbound idx hidx
    omega
  by_cases hpush : blocks.length ≤ cur
  · -- cur = blocks.length: push a fresh block, write into it
    have hcureq : cur = blocks.length := by omega
    have hbv : (blocks ++ [Block.newB N])[cur]? = some (Block.newB N) := by
      rw [List.getElem?_append_right (by omega)]
      rw [hcureq]
      simp
    have hnewslot : (Block.newB N).events[idx]? = some none := by
      rw [Block.newB]
      simp [List.getElem?_replicate, hidx]
    refine ⟨blocks ++ [Block.mk ((List.replicate (N * N) (none : Option EventCoordless)).set idx (some (EventCoordless.fromEvent e))) (0 + 1)],
      map.set idx (cur + 1), ?_, ?_, by rw [hcur2, if_pos hpush]; simp, by rw [hcur2]⟩
    · rw [set_event_for_channel, hcur]
      simp only [if_pos hpush, hbv]
      rw [Block.set_event]
      rw [hnewslot]
      simp only [Block.newB]
      rw [hcureq]
      have hsa := set_append_last blocks (Block.newB N)
        (Block.mk ((List.replicate (N * N) (none : Option EventCoordless)).set idx (some (EventCoordless.fromEvent e))) (0 + 1))
      simp only [Block.newB] at hsa
      rw [hsa]
    · -- the invariant for the extended sequence
      refine ⟨by simp, by simp [hmaplen], ?_, ?_, ?_⟩
      · intro k b hk
        rcases Nat.lt_or_ge k blocks.length with hlt | hge
        · rw [List.getElem?_append_left hlt] at hk
          exact hblen k b hk
        · rw [List.getElem?_append_right hge] at hk
          rcases Nat.eq_or_lt_of_le hge with heq | hgt
          · rw [← heq] at hk
            simp at hk
            rw [← hk]
            simp
          · rw [List.getElem?_eq_none] at hk
            · exact absurd hk (by simp)
            · simp
              omega
      · intro i hi
        rcases eq_or_ne i idx with rfl | hne
        · rw [List.getElem?_set_eq_of_lt _ (by omega)]
          simp
          omega
        · rw [List.getElem?_set_ne (fun hcon => hne hcon.symm)]
          have := hbound i hi
          simp
          omega
      · intro i hi k b hk hkb
        rcases eq_or_ne i idx with rfl | hne
        · rw [List.getElem?_set_eq_of_lt _ (by omega)] at hk
          simp at hk
          have : k < blocks.length + 1 := by
            by_contra hcon
            rw [List.getElem?_eq_none (by simp; omega)] at hkb
            exact absurd hkb (by simp)
          omega
        · rw [List.getElem?_set_ne (fun hcon => hne hcon.symm)] at hk
          rcases Nat.lt_or_ge k blocks.length with hlt | hge
          · rw [List.getElem?_append_left hlt] at hkb
            exact hempty i hi k b hk hkb
          · rcases Nat.eq_or_lt_of_le hge with heq | hgt
            · rw [List.getElem?_append_right hge, ← heq] at hkb
              simp at hkb
              rw [← hkb]
              rw [List.getElem?_set_ne (fun hcon => hne hcon.symm)]
              simp [List.getElem?_replicate, hi]
            · rw [List.getElem?_eq_none (by simp; omega)] at hkb
              exact absurd hkb (by simp)
  · -- cur < blocks.length: write into the existing block
    push_neg at hpush
    have hblk : blocks[cur]? = some blocks[cur] := List.getElem?_eq_getElem hpush
    have hslotempty : blocks[cur].events[idx]? = some none :=
      hempty idx hidx cur blocks[cur] (by omega) hblk
    refine ⟨blocks.set cur (Block.mk (blocks[cur].events.set idx (some (EventCoordless.fromEvent e))) (blocks[cur].fill_count + 1)),
      map.set idx (cur + 1), ?_, ?_,
      by rw [hcur2, if_neg (by omega : ¬(blocks.length ≤ cur))]; simp, by rw [hcur2]⟩
    · rw [set_event_for_channel, hcur]
      simp only [if_neg (by omega : ¬(blocks.length ≤ cur)), hblk]
      rw [Block.set_event, hslotempty]
    · refine ⟨by simp; omega, by simp [hmaplen], ?_, ?_, ?_⟩
      · intro k b hk
        by_cases hkc : cur = k
        · rw [← hkc] at hk
          rw [List.getElem?_set_eq_of_lt _ hpush] at hk
          have hb := (Option.some.inj hk).symm
          rw [hb]
          show (blocks[cur].events.set idx (some (EventCoordless.fromEvent e))).length = N * N
          rw [List.length_set]
          exact hblen cur blocks[cur] hblk
        · rw [List.getElem?_set_ne hkc] at hk
          exact hblen k b hk
      · intro i hi
        by_cases hii : idx = i
        · rw [← hii]
          rw [List.getElem?_set_eq_of_lt _ (by omega : idx < map.length)]
          rw [List.length_set]
          show (some (cur + 1)).getD 0 ≤ blocks.length
          simp only [Option.getD_some]
          omega
        · rw [List.getElem?_set_ne hii, List.length_set]
          exact hbound i hi
      · intro i hi k b hk hkb
        by_cases hii : idx = i
        · rw [← hii] at hk ⊢
          rw [List.getElem?_set_eq_of_lt _ (by omega : idx < map.length)] at hk
          simp only [Option.getD_some] at hk
          by_cases hkc : cur = k
          · omega
          · rw [List.getElem?_set_ne hkc] at hkb
            exact hempty idx hidx k b (by rw [hcur2]; omega) hkb
        · rw [List.getElem?_set_ne hii] at hk
          by_cases hkc : cur = k
          · rw [← hkc] at hkb hk
            rw [List.getElem?_set_eq_of_lt _ hpush] at hkb
            have hb := (Option.some.inj hkb).symm
            rw [hb]
            show (blocks[cur].events.set idx (some (EventCoordless.fromEvent e)))[i]? = some none
            rw [List.getElem?_set_ne hii]
            exact hempty i hi cur blocks[cur] hk hblk
          · rw [List.getElem?_set_ne hkc] at hkb
            exact hempty i hi k b hk hkb

/-- An event whose computed intra-tile slot is in range and whose channel
is one of 0, 1, 2 — the precondition the claims place on callers. -/
def ValidEvt (N iy ix : Nat) (e : Event) : Prop :=
  (e.coord.y - iy / N) * N + (e.coord.x - ix / N) < N * N ∧ e.coord.c.getD 0 < 3

instance (N iy ix : Nat) (e : Event) : Decidable (ValidEvt N iy ix e) := by
  unfold ValidEvt
  infer_instance

/-- Cube invariant: fixed tile indices and the channel invariant on all
three channels. -/
def CubeInv (N iy ix : Nat) (c : Cube) : Prop :=
  c.cube_idx_y = iy ∧ c.cube_idx_x = ix ∧
  chanInv N c.blocks_r c.block_idx_map_r ∧
  chanInv N c.blocks_g c.block_idx_map_g ∧
  chanInv N c.blocks_b c.block_idx_map_b

/-- A fresh cube satisfies the invariant. -/
theorem cube_new_inv (N iy ix ic : Nat) : CubeInv N iy ix (Cube.new N iy ix ic) := by
  have hchan : chanInv N [Block.newB N] (List.replicate (N * N) 0) := by
    refine ⟨by simp, by simp, ?_, ?_, ?_⟩
    · intro k b hk
      rcases Nat.lt_or_ge k 1 with h1 | h1
      · interval_cases k
        simp at hk
        rw [← hk, Block.newB]
        simp
      · rw [List.getElem?_eq_none (by simpa using h1)] at hk
        exact absurd hk (by simp)
    · intro i hi
      rw [List.getElem?_replicate, if_pos hi]
      simp
    · intro i hi k b _ hk
      rcases Nat.lt_or_ge k 1 with h1 | h1
      · interval_cases k
        simp at hk
        rw [← hk, Block.newB]
        simp [List.getElem?_replicate, hi]
      · rw [List.getElem?_eq_none (by simpa using h1)] at hk
        exact absurd hk (by simp)
  exact ⟨rfl, rfl, hchan, hchan, hchan⟩

/-- A valid event on an invariant-satisfying cube always succeeds and
preserves the invariant. -/
theorem cube_step_ok (N iy ix : Nat) (c : Cube) (e : Event)
    (hinv : CubeInv N iy ix c) (he : ValidEvt N iy ix e) :
    ∃ c', Cube.set_event N c e = some (Except.ok (), c') ∧ CubeInv N iy ix c' := by
  obtain ⟨hy, hx, hr, hg, hb⟩ := hinv
  obtain ⟨hslot, hch⟩ := he
  have hp1 : (c.event_coord_to_block_idx N e).1 =
      (e.coord.y - iy / N) * N + (e.coord.x - ix / N) := by
    rw [Cube.event_coord_to_block_idx, hy, hx]
  have hp2 : (c.event_coord_to_block_idx N e).2 = e.coord.c.getD 0 := rfl
  have hidx : (c.event_coord_to_block_idx N e).1 < N * N := by rw [hp1]; exact hslot
  rcases (by omega : e.coord.c.getD 0 = 0 ∨ e.coord.c.getD 0 = 1 ∨ e.coord.c.getD 0 = 2)
    with h0 | h1 | h2
  · obtain ⟨bv', m', heq, hinv', _, _⟩ :=
      set_event_for_channel_ok N c.blocks_r c.block_idx_map_r e
        (c.event_coord_to_block_idx N e).1 hr hidx
    refine ⟨{ c with blocks_r := bv', block_idx_map_r := m' }, ?_, ⟨hy, hx, hinv', hg, hb⟩⟩
    rw [Cube.set_event, if_pos (show (c.event_coord_to_block_idx N e).2 = 0 from h0), heq]
    rfl
  · obtain ⟨bv', m', heq, hinv', _, _⟩ :=
      set_event_for_channel_ok N c.blocks_g c.block_idx_map_g e
        (c.event_coord_to_block_idx N e).1 hg hidx
    refine ⟨{ c with blocks_g := bv', block_idx_map_g := m' }, ?_, ⟨hy, hx, hr, hinv', hb⟩⟩
    rw [Cube.set_event,
      if_neg (show ¬((c.event_coord_to_block_idx N e).2 = 0) by rw [hp2]; omega),
      if_pos (show (c.event_coord_to_block_idx N e).2 = 1 from h1), heq]
    rfl
  · obtain ⟨bv', m', heq, hinv', _, _⟩ :=
      set_event_for_channel_ok N c.blocks_b c.block_idx_map_b e
        (c.event_coord_to_block_idx N e).1 hb hidx
    refine ⟨{ c with blocks_b := bv', block_idx_map_b := m' }, ?_, ⟨hy, hx, hr, hg, hinv'⟩⟩
    rw [Cube.set_event,
      if_neg (show ¬((c.event_coord_to_block_idx N e).2 = 0) by rw [hp2]; omega),
      if_neg (show ¬((c.event_coord_to_block_idx N e).2 = 1) by rw [hp2]; omega),
      if_pos (show (c.event_coord_to_block_idx N e).2 = 2 from h2), heq]
    rfl

/-- The invariant holds along any run of valid events. -/
theorem cube_run_inv (N iy ix : Nat) : ∀ (es : List Event) (c : Cube),
    CubeInv N iy ix c → (∀ e ∈ es, ValidEvt N iy ix e) →
    ∃ c', cubeRunFrom N c es = some c' ∧ CubeInv N iy ix c' := by
  intro es
  induction es with
  | nil => intro c hc _; exact ⟨c, rfl, hc⟩
  | cons e es ih =>
      intro c hc hv
      obtain ⟨c1, hstep, hinv1⟩ := cube_step_ok N iy ix c e hc (hv e (by simp))
      obtain ⟨c', hrun, hinv'⟩ := ih c1 hinv1 (fun x hx => hv x (by simp [hx]))
      refine ⟨c', ?_, hinv'⟩
      rw [cubeRunFrom, List.foldlM_cons]
      have hstep2 : cubeStep N c e = some c1 := by
        rw [cubeStep, hstep]
        rfl
      rw [hstep2]
      exact hrun

/-- Claim C1 (amended): on every cube reachable by `set_event` calls with
in-tile coordinates and channels in `{0,1,2}`, each `block_idx_map` entry
is at most — not strictly below — the corresponding block-sequence length;
equality means the next write to that slot first pushes a fresh block. -/
theorem cube_block_idx_map_le (N iy ix ic : Nat) (es : List Event) (c : Cube)
    (hval : ∀ e ∈ es, ValidEvt N iy ix e) (hrun : cubeRun N iy ix ic es = some c) :
    ∀ slot, slot < N * N →
      (c.block_idx_map_r[slot]?).getD 0 ≤ c.blocks_r.length ∧
      (c.block_idx_map_g[slot]?).getD 0 ≤ c.blocks_g.length ∧
      (c.block_idx_map_b[slot]?).getD 0 ≤ c.blocks_b.length := by
  obtain ⟨c', hrun', hinv'⟩ :=
    cube_run_inv N iy ix es (Cube.new N iy ix ic) (cube_new_inv N iy ix ic) hval
  rw [cubeRun, hrun'] at hrun
  have hc : c' = c := by injection hrun
  rw [← hc]
  intro slot hslot
  obtain ⟨_, _, ⟨_, _, _, hbr, _⟩, ⟨_, _, _, hbg, _⟩, ⟨_, _, _, hbb, _⟩⟩ := hinv'
  exact ⟨hbr slot hslot, hbg slot hslot, hbb slot hslot⟩

/-- The event of the repository's own `test_set_event`: pixel (0,0),
channel 0, `d = 7`, `delta_t = 100`. -/
def cexEvent : Event := ⟨⟨0, 0, some 0⟩, 7, 100⟩

/-- The cube of side 2 after one `set_event` call. -/
def cexCube1 : Cube := (cubeRun 2 0 0 0 [cexEvent]).getD (Cube.new 2 0 0 0)

/-- Counterexample to C1 as stated: after a single successful `set_event`
on a fresh side-2 cube, `block_idx_map_r[0] = 1` while `blocks_r` still has
length 1, so the entry is not a valid index into the sequence (the
repository's `test_set_event` asserts exactly this state). -/
theorem cube_block_idx_map_lt_cex :
    (∀ e ∈ [cexEvent], ValidEvt 2 0 0 e) ∧
    cubeRun 2 0 0 0 [cexEvent] = some cexCube1 ∧
    ¬((cexCube1.block_idx_map_r[0]?).getD 0 < cexCube1.blocks_r.length) :=
  ⟨by decide, by decide, by decide⟩

/-- Claim C6: from any state reachable by valid `set_event` calls, another
valid call never returns `Err(AlreadyExists)` (nor panics): the block
selected by the index map always has the target slot empty. -/
theorem cube_set_event_no_already_exists (N iy ix ic : Nat) (es : List Event) (e : Event)
    (c : Cube) (hval : ∀ x ∈ es, ValidEvt N iy ix x)
    (hrun : cubeRun N iy ix ic es = some c) (he : ValidEvt N iy ix e) :
    ∃ c', Cube.set_event N c e = some (Except.ok (), c') := by
  obtain ⟨c', hrun', hinv'⟩ :=
    cube_run_inv N iy ix es (Cube.new N iy ix ic) (cube_new_inv N iy ix ic) hval
  rw [cubeRun, hrun'] at hrun
  have hc : c' = c := by injection hrun
  rw [← hc]
  obtain ⟨c2, heq, _⟩ := cube_step_ok N iy ix c' e hinv' he
  exact ⟨c2, heq⟩

/-- Any completed `set_event` on channel 0 leaves the other channels and
the tile indices untouched. -/
theorem set_event_chan0_preserves (N : Nat) (c : Cube) (e : Event)
    (res : Except BlockError Unit) (c' : Cube)
    (h : Cube.set_event N c e = some (res, c')) (hch : e.coord.c.getD 0 = 0) :
    c'.blocks_g = c.blocks_g ∧ c'.block_idx_map_g = c.block_idx_map_g ∧
    c'.blocks_b = c.blocks_b ∧ c'.block_idx_map_b = c.block_idx_map_b ∧
    c'.cube_idx_y = c.cube_idx_y ∧ c'.cube_idx_x = c.cube_idx_x ∧
    c'.cube_idx_c = c.cube_idx_c := by
  rw [Cube.set_event,
    if_pos (show (c.event_coord_to_block_idx N e).2 = 0 from hch)] at h
  obtain ⟨r, _, hmk⟩ := Option.map_eq_some'.mp h
  have hc' : c' = { c with blocks_r := r.2.1, block_idx_map_r := r.2.2 } := by
    have h2 := congrArg Prod.snd hmk
    simpa using h2.symm
  rw [hc']
  exact ⟨rfl, rfl, rfl, rfl, rfl, rfl, rfl⟩

/-- Any completed `set_event` on channel 1 leaves the other channels and
the tile indices untouched. -/
theorem set_event_chan1_preserves (N : Nat) (c : Cube) (e : Event)
    (res : Except BlockError Unit) (c' : Cube)
    (h : Cube.set_event N c e = some (res, c')) (hch : e.coord.c.getD 0 = 1) :
    c'.blocks_r = c.blocks_r ∧ c'.block_idx_map_r = c.block_idx_map_r ∧
    c'.blocks_b = c.blocks_b ∧ c'.block_idx_map_b = c.block_idx_map_b ∧
    c'.cube_idx_y = c.cube_idx_y ∧ c'.cube_idx_x = c.cube_idx_x ∧
    c'.cube_idx_c = c.cube_idx_c := by
  have hp2 : (c.event_coord_to_block_idx N e).2 = e.coord.c.getD 0 := rfl
  rw [Cube.set_event,
    if_neg (show ¬((c.event_coord_to_block_idx N e).2 = 0) by rw [hp2]; omega),
    if_pos (show (c.event_coord_to_block_idx N e).2 = 1 from hch)] at h
  obtain ⟨r, _, hmk⟩ := Option.map_eq_some'.mp h
  have hc' : c' = { c with blocks_g := r.2.1, block_idx_map_g := r.2.2 } := by
    have h2 := congrArg Prod.snd hmk
    simpa using h2.symm
  rw [hc']
  exact ⟨rfl, rfl, rfl, rfl, rfl, rfl, rfl⟩

/-- Any completed `set_event` on channel 2 leaves the other channels and
the tile indices untouched. -/
theorem set_event_chan2_preserves (N : Nat) (c : Cube) (e : Event)
    (res : Except BlockError Unit) (c' : Cube)
    (h : Cube.set_event N c e = some (res, c')) (hch : e.coord.c.getD 0 = 2) :
    c'.blocks_r = c.blocks_r ∧ c'.block_idx_map_r = c.block_idx_map_r ∧
    c'.blocks_g = c.blocks_g ∧ c'.block_idx_map_g = c.block_idx_map_g ∧
    c'.cube_idx_y = c.cube_idx_y ∧ c'.cube_idx_x = c.cube_idx_x ∧
    c'.cube_idx_c = c.cube_idx_c := by
  have hp2 : (c.event_coord_to_block_idx N e).2 = e.coord.c.getD 0 := rfl
  rw [Cube.set_event,
    if_neg (show ¬((c.event_coord_to_block_idx N e).2 = 0) by rw [hp2]; omega),
    if_neg (show ¬((c.event_coord_to_block_idx N e).2 = 1) by rw [hp2]; omega),
    if_pos (show (c.event_coord_to_block_idx N e).2 = 2 from hch)] at h
  obtain ⟨r, _, hmk⟩ := Option.map_eq_some'.mp h
  have hc' : c' = { c with blocks_b := r.2.1, block_idx_map_b := r.2.2 } := by
    have h2 := congrArg Prod.snd hmk
    simpa using h2.symm
  rw [hc']
  exact ⟨rfl, rfl, rfl, rfl, rfl, rfl, rfl⟩

/-- Claim C7: a successful `Cube::set_event` on channel `c` modifies only
channel `c`'s block sequence and index map — the other two channels' block
sequences (hence their stored events and fill counts) and index maps, and
the cube's tile indices, are exactly unchanged; consequently a whole run of
channel-0 events leaves channels 1 and 2 untouched. -/
theorem cube_channel_independence :
    (∀ (N : Nat) (c : Cube) (e : Event) (c' : Cube),
      Cube.set_event N c e = some (Except.ok (), c') →
      (e.coord.c.getD 0 = 0 →
        c'.blocks_g = c.blocks_g ∧ c'.block_idx_map_g = c.block_idx_map_g ∧
        c'.blocks_b = c.blocks_b ∧ c'.block_idx_map_b = c.block_idx_map_b ∧
        c'.cube_idx_y = c.cube_idx_y ∧ c'.cube_idx_x = c.cube_idx_x ∧
        c'.cube_idx_c = c.cube_idx_c) ∧
      (e.coord.c.getD 0 = 1 →
        c'.blocks_r = c.blocks_r ∧ c'.block_idx_map_r = c.block_idx_map_r ∧
        c'.blocks_b = c.blocks_b ∧ c'.block_idx_map_b = c.block_idx_map_b ∧
        c'.cube_idx_y = c.cube_idx_y ∧ c'.cube_idx_x = c.cube_idx_x ∧
        c'.cube_idx_c = c.cube_idx_c) ∧
      (e.coord.c.getD 0 = 2 →
        c'.blocks_r = c.blocks_r ∧ c'.block_idx_map_r = c.block_idx_map_r ∧
        c'.blocks_g = c.blocks_g ∧ c'.block_idx_map_g = c.block_idx_map_g ∧
        c'.cube_idx_y = c.cube_idx_y ∧ c'.cube_idx_x = c.cube_idx_x ∧
        c'.cube_idx_c = c.cube_idx_c)) ∧
    (∀ (N : Nat) (c : Cube) (es : List Event) (c' : Cube),
      (∀ e ∈ es, e.coord.c.getD 0 = 0) → cubeRunFrom N c es = some c' →
      c'.blocks_g = c.blocks_g ∧ c'.block_idx_map_g = c.block_idx_map_g ∧
      c'.blocks_b = c.blocks_b ∧ c'.block_idx_map_b = c.block_idx_map_b) := by
  constructor
  · intro N c e c' h
    exact ⟨set_event_chan0_preserves N c e _ c' h,
      set_event_chan1_preserves N c e _ c' h,
      set_event_chan2_preserves N c e _ c' h⟩
  · intro N c es
    induction es generalizing c with
    | nil =>
        intro c' _ hrun
        have hc : c = c' := by
          rw [cubeRunFrom] at hrun
          injection hrun
        rw [← hc]
        exact ⟨rfl, rfl, rfl, rfl⟩
    | cons e es ih =>
        intro c' hch hrun
        rw [cubeRunFrom, List.foldlM_cons] at hrun
        rcases hstep : cubeStep N c e with _ | c1
        · rw [hstep] at hrun
          exact absurd hrun (by simp)
        · rw [hstep] at hrun
          obtain ⟨⟨res, c1'⟩, hse, hc1⟩ := Option.map_eq_some'.mp hstep
          have hc1' : c1' = c1 := by simpa using hc1
          rw [hc1'] at hse
          have hpre := set_event_chan0_preserves N c e res c1 hse (hch e (by simp))
          have hrest := ih c1 c' (fun x hx => hch x (by simp [hx])) hrun
          exact ⟨hrest.1.trans hpre.1, hrest.2.1.trans hpre.2.1,
            hrest.2.2.1.trans hpre.2.2.1, hrest.2.2.2.trans hpre.2.2.2.1⟩


/-- Channel-0 instance of the master lemma, exposing the updated sequence
and map of a successful `set_event`. -/
theorem set_event_chan0_components (N iy ix : Nat) (c : Cube) (e : Event)
    (hinv : CubeInv N iy ix c) (he : ValidEvt N iy ix e)
    (hch : e.coord.c.getD 0 = 0) :
    ∃ bv' m',
      Cube.set_event N c e =
        some (Except.ok (), { c with blocks_r := bv', block_idx_map_r := m' }) ∧
      chanInv N bv' m' ∧
      bv'.length = (if c.blocks_r.length ≤
          (c.block_idx_map_r[(c.event_coord_to_block_idx N e).1]?).getD 0
        then c.blocks_r.length + 1 else c.blocks_r.length) ∧
      m' = c.block_idx_map_r.set (c.event_coord_to_block_idx N e).1
        ((c.block_idx_map_r[(c.event_coord_to_block_idx N e).1]?).getD 0 + 1) := by
  obtain ⟨hy, hx, hr, hg, hb⟩ := hinv
  obtain ⟨hslot, _⟩ := he
  have hidx : (c.event_coord_to_block_idx N e).1 < N * N := by
    rw [Cube.event_coord_to_block_idx, hy, hx]
    exact hslot
  obtain ⟨bv', m', heq, hinv', hlen, hm⟩ :=
    set_event_for_channel_ok N c.blocks_r c.block_idx_map_r e
      (c.event_coord_to_block_idx N e).1 hr hidx
  refine ⟨bv', m', ?_, hinv', hlen, hm⟩
  rw [Cube.set_event,
    if_pos (show (c.event_coord_to_block_idx N e).2 = 0 from hch), heq]
  rfl

/-- One same-slot channel-0 event bumps that slot's index from `j` to
`j + 1` and brings the sequence length to `max 1 (j + 1)`. -/
theorem same_slot_step_len (N iy ix : Nat) (c : Cube) (e : Event) (j : Nat)
    (hinv : CubeInv N iy ix c) (he : ValidEvt N iy ix e)
    (hch : e.coord.c.getD 0 = 0)
    (hmapj : (c.block_idx_map_r[(c.event_coord_to_block_idx N e).1]?).getD 0 = j)
    (hlenj : c.blocks_r.length = max 1 j) :
    ∃ c', cubeStep N c e = some c' ∧ CubeInv N iy ix c' ∧
      (c'.block_idx_map_r[(c'.event_coord_to_block_idx N e).1]?).getD 0 = j + 1 ∧
      c'.blocks_r.length = max 1 (j + 1) ∧
      c'.blocks_g = c.blocks_g ∧ c'.blocks_b = c.blocks_b := by
  obtain ⟨bv', m', heq, hinv', hlen, hm⟩ :=
    set_event_chan0_components N iy ix c e hinv he hch
  have hcy : c.cube_idx_y = iy := hinv.1
  have hcx : c.cube_idx_x = ix := hinv.2.1
  have hidx : (c.event_coord_to_block_idx N e).1 < N * N := by
    rw [Cube.event_coord_to_block_idx, hcy, hcx]
    exact he.1
  have hmaplen : c.block_idx_map_r.length = N * N := hinv.2.2.1.2.1
  refine ⟨{ c with blocks_r := bv', block_idx_map_r := m' }, ?_, ?_, ?_, ?_, rfl, rfl⟩
  · rw [cubeStep, heq]
    rfl
  · exact ⟨hinv.1, hinv.2.1, hinv', hinv.2.2.2.1, hinv.2.2.2.2⟩
  · have hsame : ({ c with blocks_r := bv', block_idx_map_r := m' } :
        Cube).event_coord_to_block_idx N e = c.event_coord_to_block_idx N e := rfl
    rw [hsame]
    show (m'[(c.event_coord_to_block_idx N e).1]?).getD 0 = j + 1
    rw [hm, hmapj]
    rw [List.getElem?_set_eq_of_lt _ (by omega)]
    rfl
  · show bv'.length = max 1 (j + 1)
    rw [hlen, hmapj, hlenj]
    rcases Nat.eq_zero_or_pos j with rfl | hj
    · simp
    · rw [if_pos (by omega), Nat.max_eq_right (by omega), Nat.max_eq_right (by omega)]

/-- Iterating one event `k` times from a state with slot index `j`. -/
theorem same_slot_run_len (N iy ix : Nat) (e : Event)
    (he : ValidEvt N iy ix e) (hch : e.coord.c.getD 0 = 0) :
    ∀ (k j : Nat) (c : Cube), CubeInv N iy ix c →
      (c.block_idx_map_r[(c.event_coord_to_block_idx N e).1]?).getD 0 = j →
      c.blocks_r.length = max 1 j →
      ∃ c', cubeRunFrom N c (List.replicate k e) = some c' ∧
        c'.blocks_r.length = max 1 (j + k) ∧
        c'.blocks_g = c.blocks_g ∧ c'.blocks_b = c.blocks_b := by
  intro k
  induction k with
  | zero =>
      intro j c hinv hmap hlen
      exact ⟨c, rfl, by simpa using hlen, rfl, rfl⟩
  | succ k ih =>
      intro j c hinv hmap hlen
      obtain ⟨c1, hstep, hinv1, hmap1, hlen1, hg1, hb1⟩ :=
        same_slot_step_len N iy ix c e j hinv he hch hmap hlen
      obtain ⟨c', hrun, hlen', hg', hb'⟩ := ih (j + 1) c1 hinv1 hmap1 hlen1
      refine ⟨c', ?_, ?_, hg'.trans hg1, hb'.trans hb1⟩
      · rw [List.replicate_succ, cubeRunFrom, List.foldlM_cons, hstep]
        exact hrun
      · rw [hlen']
        congr 1
        omega

/-- Claim C5 (amended): feeding `k ≥ 1` copies of one channel-0 event for
a fixed in-tile pixel slot into a fresh cube leaves channel 0 with exactly
`k` blocks — the sequence grows by one block per single additional
same-slot event (so `N²` such events give `N²` blocks, not `N`) — while
channels 1 and 2 keep length 1. -/
theorem cube_growth_per_event (N iy ix ic : Nat) (e : Event)
    (he : ValidEvt N iy ix e) (hch : e.coord.c.getD 0 = 0) (k : Nat) (hk : 1 ≤ k) :
    ∃ c, cubeRun N iy ix ic (List.replicate k e) = some c ∧
      c.blocks_r.length = k ∧ c.blocks_g.length = 1 ∧ c.blocks_b.length = 1 := by
  have hmap0 : (((Cube.new N iy ix ic).block_idx_map_r[((Cube.new N iy ix
      ic).event_coord_to_block_idx N e).1]?).getD 0) = 0 := by
    show ((List.replicate (N * N) 0)[((Cube.new N iy ix
      ic).event_coord_to_block_idx N e).1]?).getD 0 = 0
    rw [List.getElem?_replicate]
    by_cases hlt : ((Cube.new N iy ix ic).event_coord_to_block_idx N e).1 < N * N
    · rw [if_pos hlt]
      rfl
    · rw [if_neg hlt]
      rfl
  obtain ⟨c, hrun, hlen, hg, hb⟩ := same_slot_run_len N iy ix e he hch k 0
    (Cube.new N iy ix ic) (cube_new_inv N iy ix ic) hmap0 (by simp [Cube.new])
  refine ⟨c, hrun, ?_, ?_, ?_⟩
  · rw [hlen]
    omega
  · rw [hg]
    rfl
  · rw [hb]
    rfl

instance : DecidableEq (Except BlockError Unit) := fun a b =>
  match a, b with
  | .ok _, .ok _ => isTrue rfl
  | .error x, .error y =>
      if h : x = y then isTrue (by rw [h]) else isFalse (by intro hc; cases hc; exact h rfl)
  | .ok _, .error _ => isFalse (by intro hc; cases hc)
  | .error _, .ok _ => isFalse (by intro hc; cases hc)

/-- The side-2 cube after three same-slot events. -/
def cexCube3 : Cube := (cubeRun 2 0 0 0 (List.replicate 3 cexEvent)).getD (Cube.new 2 0 0 0)

/-- The side-2 cube after `N² = 4` same-slot events. -/
def cexCube4 : Cube := (cubeRun 2 0 0 0 (List.replicate 4 cexEvent)).getD (Cube.new 2 0 0 0)

/-- The side-2 cube after `N² + N = 6` same-slot events. -/
def cexCube6 : Cube := (cubeRun 2 0 0 0 (List.replicate 6 cexEvent)).getD (Cube.new 2 0 0 0)

/-- Counterexample to C5 as stated: with side `N = 2`, after the `N² = 4`
same-slot events channel 0 has 4 blocks, and `N = 2` further same-slot
events bring it to 6 — not the 5 that "one block per N additional events"
predicts. -/
theorem cube_growth_cex :
    cubeRun 2 0 0 0 (List.replicate 4 cexEvent) = some cexCube4 ∧
    cubeRun 2 0 0 0 (List.replicate 6 cexEvent) = some cexCube6 ∧
    cexCube4.blocks_r.length = 4 ∧
    cexCube6.blocks_r.length = 6 ∧
    ¬(cexCube6.blocks_r.length = cexCube4.blocks_r.length + 1) :=
  ⟨by decide, by decide, by decide, by decide, by decide⟩

/-- Witness for the amended C1 after one event on a side-2 cube. -/
theorem cube_block_idx_map_le_witness :
    (∀ e ∈ [cexEvent], ValidEvt 2 0 0 e) ∧
    cubeRun 2 0 0 0 [cexEvent] = some cexCube1 ∧ (0 : Nat) < 2 * 2 ∧
    ((cexCube1.block_idx_map_r[0]?).getD 0 ≤ cexCube1.blocks_r.length ∧
      (cexCube1.block_idx_map_g[0]?).getD 0 ≤ cexCube1.blocks_g.length ∧
      (cexCube1.block_idx_map_b[0]?).getD 0 ≤ cexCube1.blocks_b.length) :=
  ⟨by decide, by decide, by decide,
    cube_block_idx_map_le 2 0 0 0 [cexEvent] cexCube1 (by decide) (by decide) 0 (by decide)⟩

/-- Witness for C6: a second same-slot event on the side-2 cube. -/
theorem cube_set_event_no_already_exists_witness :
    (∀ x ∈ [cexEvent], ValidEvt 2 0 0 x) ∧
    cubeRun 2 0 0 0 [cexEvent] = some cexCube1 ∧ ValidEvt 2 0 0 cexEvent ∧
    (∃ c', Cube.set_event 2 cexCube1 cexEvent = some (Except.ok (), c')) :=
  ⟨by decide, by decide, by decide,
    cube_set_event_no_already_exists 2 0 0 0 [cexEvent] cexEvent cexCube1
      (by decide) (by decide) (by decide)⟩

/-- Witness for C7 at the side-2 cube and one channel-0 event. -/
theorem cube_channel_independence_witness :
    (Cube.set_event 2 (Cube.new 2 0 0 0) cexEvent = some (Except.ok (), cexCube1) ∧
      cexEvent.coord.c.getD 0 = 0 ∧
      (cexCube1.blocks_g = (Cube.new 2 0 0 0).blocks_g ∧
        cexCube1.block_idx_map_g = (Cube.new 2 0 0 0).block_idx_map_g ∧
        cexCube1.blocks_b = (Cube.new 2 0 0 0).blocks_b ∧
        cexCube1.block_idx_map_b = (Cube.new 2 0 0 0).block_idx_map_b ∧
        cexCube1.cube_idx_y = (Cube.new 2 0 0 0).cube_idx_y ∧
        cexCube1.cube_idx_x = (Cube.new 2 0 0 0).cube_idx_x ∧
        cexCube1.cube_idx_c = (Cube.new 2 0 0 0).cube_idx_c)) ∧
    ((∀ e ∈ [cexEvent], e.coord.c.getD 0 = 0) ∧
      cubeRunFrom 2 (Cube.new 2 0 0 0) [cexEvent] = some cexCube1 ∧
      (cexCube1.blocks_g = (Cube.new 2 0 0 0).blocks_g ∧
        cexCube1.block_idx_map_g = (Cube.new 2 0 0 0).block_idx_map_g ∧
        cexCube1.blocks_b = (Cube.new 2 0 0 0).blocks_b ∧
        cexCube1.block_idx_map_b = (Cube.new 2 0 0 0).block_idx_map_b)) :=
  ⟨⟨by decide, by decide,
      (cube_channel_independence.1 2 (Cube.new 2 0 0 0) cexEvent cexCube1 (by decide)).1
        (by decide)⟩,
    ⟨by decide, by decide,
      cube_channel_independence.2 2 (Cube.new 2 0 0 0) [cexEvent] cexCube1
        (by decide) (by decide)⟩⟩

/-- Witness for the amended C5 with three same-slot events. -/
theorem cube_growth_per_event_witness :
    ValidEvt 2 0 0 cexEvent ∧ cexEvent.coord.c.getD 0 = 0 ∧ (1 : Nat) ≤ 3 ∧
    (∃ c, cubeRun 2 0 0 0 (List.replicate 3 cexEvent) = some c ∧
      c.blocks_r.length = 3 ∧ c.blocks_g.length = 1 ∧ c.blocks_b.length = 1) :=
  ⟨by decide, by decide, by decide,
    cube_growth_per_event 2 0 0 0 cexEvent (by decide) (by decide) 3 (by decide)⟩
